import Mathlib

/-!
Verification development for the lavish IDL compiler.

The development shallowly embeds, in Lean, the two subsystems the claims
concern: the nom-based schema parser (src/lavish/src/parser/mod.rs) and the
code-generation naming layers (src/lavish/src/codegen/rust/ir.rs,
src/src/ast/anchored.rs, src/src/codegen/rust/ir/handler.rs).

Modelling conventions used throughout:
- source text and every derived string value is a `List Char` (alias `Str`);
- the nom `IResult` is the three-valued `PResult`: success with remaining
  input, a recoverable error (`nom::Err::Error`) or a fatal error
  (`nom::Err::Failure`, produced by `cut`);
- a parse error is a `VerboseError`-style list of (remaining input, label)
  entries, so errors carry both a location and the context label stack;
- source spans that only feed diagnostics are omitted from AST nodes; where a
  span carries the matched text (identifiers, user types) the matched
  characters are kept;
- recursive grammar productions take a fuel parameter; running out of fuel is
  a recoverable error, and every theorem is quantified over the fuel.
-/

abbrev Str := List Char

/-- Convert a literal to the character-list representation used everywhere. -/
def str (s : String) : Str := s.toList

/-- A nom `VerboseError`: each entry pairs the remaining input at the point
the error (or a `context` combinator) fired with a label. -/
abbrev PError := List (Str × String)

/-- Result of running a parser: models nom's `IResult`, with `err` for the
recoverable `nom::Err::Error` and `fail` for the fatal `nom::Err::Failure`. -/
inductive PResult (α : Type) where
  | ok (rest : Str) (val : α)
  | err (e : PError)
  | fail (e : PError)
deriving DecidableEq

/-- The parsed value of a successful result, if any. -/
def PResult.val? {α : Type} : PResult α → Option α
  | .ok _ a => some a
  | _ => none

/-- The error payload of an unsuccessful result (recoverable or fatal). -/
def PResult.errInfo {α : Type} : PResult α → Option PError
  | .ok _ _ => none
  | .err e => some e
  | .fail e => some e

abbrev Parser (α : Type) := Str → PResult α

/-- Sequencing used for the Rust `?` operator on `IResult`: both error kinds
propagate. -/
def pbind {α β : Type} (p : Parser α) (f : α → Parser β) : Parser β := fun i =>
  match p i with
  | .ok r a => f a r
  | .err e => .err e
  | .fail e => .fail e

/-- nom `map`. -/
def pmap {α β : Type} (p : Parser α) (f : α → β) : Parser β := fun i =>
  match p i with
  | .ok r a => .ok r (f a)
  | .err e => .err e
  | .fail e => .fail e

/-- nom `tag`: match an exact character sequence. -/
def ptag (s : Str) : Parser Str := fun i =>
  if s.isPrefixOf i then .ok (i.drop s.length) s else .err [(i, "tag")]

/-- nom `character::complete::char`. -/
def pchar (c : Char) : Parser Char := fun i =>
  match i with
  | c' :: r => if c' = c then .ok r c else .err [(i, "char")]
  | [] => .err [(i, "char")]

/-- nom `take_while`: always succeeds, consumes the longest matching run. -/
def ptakeWhile (p : Char → Bool) : Parser Str := fun i =>
  .ok (i.dropWhile p) (i.takeWhile p)

/-- nom `take_while1`: errs on an empty match. -/
def ptakeWhile1 (p : Char → Bool) : Parser Str := fun i =>
  match i.takeWhile p with
  | [] => .err [(i, "take_while1")]
  | m => .ok (i.dropWhile p) m

/-- nom `take_until "\n"`: consume up to (not including) the next newline;
err when the input holds no newline. -/
def ptakeUntilNl : Parser Str := fun i =>
  if ('\n' ∈ i) then .ok (i.dropWhile (· ≠ '\n')) (i.takeWhile (· ≠ '\n'))
  else .err [(i, "take_until")]

/-- nom `opt`: a recoverable error becomes `none`; a fatal error propagates. -/
def popt {α : Type} (p : Parser α) : Parser (Option α) := fun i =>
  match p i with
  | .ok r a => .ok r (some a)
  | .err _ => .ok i none
  | .fail e => .fail e

/-- nom `cut`: promote a recoverable error to a fatal one. -/
def pcut {α : Type} (p : Parser α) : Parser α := fun i =>
  match p i with
  | .ok r a => .ok r a
  | .err e => .fail e
  | .fail e => .fail e

/-- nom `error::context`: on either error kind, push a labelled entry
carrying the input at which the labelled construct started. -/
def pcontext {α : Type} (label : String) (p : Parser α) : Parser α := fun i =>
  match p i with
  | .ok r a => .ok r a
  | .err e => .err (e ++ [(i, label)])
  | .fail e => .fail (e ++ [(i, label)])

/-- nom `alt` over two branches: try the second only on a recoverable error
of the first; a fatal error propagates at once. -/
def palt2 {α : Type} (p q : Parser α) : Parser α := fun i =>
  match p i with
  | .ok r a => .ok r a
  | .err _ => q i
  | .fail e => .fail e

/-- nom `preceded`. -/
def ppreceded {α β : Type} (p : Parser α) (q : Parser β) : Parser β :=
  pbind p (fun _ => q)

/-- nom `terminated`. -/
def pterminated {α β : Type} (p : Parser α) (q : Parser β) : Parser α :=
  pbind p (fun a => pmap q (fun _ => a))

/-- nom `delimited`. -/
def pdelimited {α β γ : Type} (l : Parser α) (p : Parser β) (r : Parser γ) :
    Parser β :=
  ppreceded l (pterminated p r)

/-- nom `separated_pair`. -/
def psepPair {α β γ : Type} (p : Parser α) (s : Parser β) (q : Parser γ) :
    Parser (α × γ) :=
  pbind p (fun a => ppreceded s (pmap q (fun c => (a, c))))

/-- nom `tuple` over two parsers. -/
def ptuple2 {α β : Type} (p : Parser α) (q : Parser β) : Parser (α × β) :=
  pbind p (fun a => pmap q (fun b => (a, b)))

/-- nom `tuple` over three parsers. -/
def ptuple3 {α β γ : Type} (p : Parser α) (q : Parser β) (r : Parser γ) :
    Parser (α × β × γ) :=
  pbind p (fun a => pmap (ptuple2 q r) (fun bc => (a, bc)))

/-- nom `all_consuming`. -/
def pallConsuming {α : Type} (p : Parser α) : Parser α := fun i =>
  match p i with
  | .ok r a => if r.isEmpty then .ok r a else .err [(r, "eof")]
  | .err e => .err e
  | .fail e => .fail e

/-- Iteration core of nom `many0`, with nom's zero-consumption guard (an
iteration that does not consume input is an error). The `gas` counter only
bounds the recursion; it starts above the input length and, because every
iteration consumes at least one character, it is never exhausted. -/
def pmany0Go {α : Type} (p : Parser α) : Nat → Str → PResult (List α)
  | 0, i => .err [(i, "many0")]
  | gas+1, i =>
    match p i with
    | .ok rest a =>
      if rest.length < i.length then
        match pmany0Go p gas rest with
        | .ok r as => .ok r (a :: as)
        | .err e => .err e
        | .fail e => .fail e
      else .err [(rest, "many0")]
    | .err _ => .ok i []
    | .fail e => .fail e

/-- nom `many0`. -/
def pmany0 {α : Type} (p : Parser α) : Parser (List α) := fun i =>
  pmany0Go p (i.length + 1) i

/-- nom `many1`: the first item must succeed, then iterate like `many0`. -/
def pmany1 {α : Type} (p : Parser α) : Parser (List α) := fun i =>
  match p i with
  | .ok rest a =>
    if rest.length < i.length then
      match pmany0 p rest with
      | .ok r as => .ok r (a :: as)
      | .err e => .err e
      | .fail e => .fail e
    else .err [(rest, "many1")]
  | .err e => .err (e ++ [(i, "many1")])
  | .fail e => .fail e

/-- The loop of nom `separated_list` after the first item: on a recoverable
error of the separator or of the item, stop and hand back the input from
before the separator. The `gas` counter starts above the input length and is
never exhausted (each iteration consumes at least two characters). -/
def psepListGo {σ α : Type} (sep : Parser σ) (p : Parser α) :
    Nat → Str → PResult (List α)
  | 0, i => .err [(i, "separated_list")]
  | gas+1, i =>
    match sep i with
    | .err _ => .ok i []
    | .fail e => .fail e
    | .ok i1 _ =>
      if i1.length < i.length then
        match p i1 with
        | .err _ => .ok i []
        | .fail e => .fail e
        | .ok i2 a =>
          if i2.length < i1.length then
            match psepListGo sep p gas i2 with
            | .ok r as => .ok r (a :: as)
            | .err e => .err e
            | .fail e => .fail e
          else .err [(i2, "separated_list")]
      else .err [(i1, "separated_list")]

/-- nom `separated_list` (nom 5): an empty list is a success consuming
nothing; fatal errors propagate from anywhere inside. -/
def psepList {σ α : Type} (sep : Parser σ) (p : Parser α) : Parser (List α) :=
  fun i =>
  match p i with
  | .err _ => .ok i []
  | .fail e => .fail e
  | .ok i1 a =>
    if i1.length < i.length then
      match psepListGo sep p (i1.length + 1) i1 with
      | .ok r as => .ok r (a :: as)
      | .err e => .err e
      | .fail e => .fail e
    else .err [(i1, "separated_list")]

/-- `sp`: optional whitespace (spaces, tabs, carriage returns, newlines). -/
def sp : Parser Str := ptakeWhile (fun c => c ∈ [' ', '\t', '\r', '\n'])

/-- `spaced(f)`: `terminated(preceded(sp, f), sp)`. -/
def pspaced {α : Type} (p : Parser α) : Parser α :=
  pterminated (ppreceded sp p) sp

/-- `loc`: zero-length span capture (`i.take(0)`); consumes nothing. The
span value itself is not modelled. -/
def ploc : Parser Unit := fun i => .ok i ()

/-!
## AST produced by the parser (src/lavish/src/parser + ast)

The ast node definitions themselves are not under src/; their fields are
taken from the constructor calls in parser/mod.rs. Source spans (`span`,
`loc`) are omitted; an `Identifier` is represented by its text.
-/

inductive BaseType where
  | bool | int32 | int64 | uint32 | uint64
  | float32 | float64 | string | bytes | timestamp
deriving DecidableEq

/-- `TypeKind` with the boxed `Type` wrappers flattened. `user` keeps the
matched characters, which the Rust code stores in the node's span. -/
inductive Typ where
  | base (b : BaseType)
  | array (inner : Typ)
  | option (inner : Typ)
  | map (keys values : Typ)
  | user (matched : Str)
deriving DecidableEq

inductive FunctionModifier where
  | server | client | notification
deriving DecidableEq

structure Comment where
  lines : List Str
deriving DecidableEq

structure SchemaField where
  comment : Option Comment
  name : Str
  typ : Typ
deriving DecidableEq

structure FunctionDecl where
  comment : Option Comment
  modifiers : Finset FunctionModifier
  name : Str
  params : List SchemaField
  results : List SchemaField
deriving DecidableEq

structure StructDecl where
  comment : Option Comment
  name : Str
  fields : List SchemaField
deriving DecidableEq

mutual

inductive NamespaceItem where
  | function (f : FunctionDecl)
  | struc (s : StructDecl)
  | names (n : NamespaceDecl)

inductive NamespaceDecl where
  | mk (name : Str) (comment : Option Comment) (items : List NamespaceItem)

end

/-- Namespace name accessor. -/
def NamespaceDecl.name : NamespaceDecl → Str
  | .mk n _ _ => n

/-- Namespace comment accessor. -/
def NamespaceDecl.comment : NamespaceDecl → Option Comment
  | .mk _ c _ => c

/-- Namespace items accessor. -/
def NamespaceDecl.items : NamespaceDecl → List NamespaceItem
  | .mk _ _ its => its

/-!
## The grammar (src/lavish/src/parser/mod.rs)
-/

/-- Characters accepted by `id`. -/
def idChars : Str :=
  str "abcdefghijklmnopqrstuvwxyzABCDEFGHIJKLMNOPQRSTUVWXYZ0123456789_"

/-- `id`: a nonempty run of identifier characters (the `Identifier` is
modelled by its text). -/
def pid : Parser Str := ptakeWhile1 (fun c => c ∈ idChars)

/-- `basetyp`: `spaced(alt(...))` over the ten base-type keywords. -/
def basetyp : Parser Typ :=
  pmap
    (pspaced
      (palt2 (pmap (ptag (str "bool")) (fun _ => BaseType.bool))
        (palt2 (pmap (ptag (str "int32")) (fun _ => BaseType.int32))
          (palt2 (pmap (ptag (str "int64")) (fun _ => BaseType.int64))
            (palt2 (pmap (ptag (str "uint32")) (fun _ => BaseType.uint32))
              (palt2 (pmap (ptag (str "uint64")) (fun _ => BaseType.uint64))
                (palt2 (pmap (ptag (str "float32")) (fun _ => BaseType.float32))
                  (palt2 (pmap (ptag (str "float64")) (fun _ => BaseType.float64))
                    (palt2 (pmap (ptag (str "string")) (fun _ => BaseType.string))
                      (palt2 (pmap (ptag (str "bytes")) (fun _ => BaseType.bytes))
                        (pmap (ptag (str "timestamp")) (fun _ => BaseType.timestamp))))))))))))
    Typ.base

/-- Characters accepted by `usertyp` (identifier characters plus angle
brackets). -/
def usertypChars : Str :=
  str "abcdefghijklmnopqrstuvwxyzABCDEFGHIJKLMNOPQRSTUVWXYZ0123456789_<>"

/-- `usertyp`: fallback accepting a nonempty run of `usertypChars` as a
single `User` type reference. -/
def usertyp : Parser Typ :=
  pmap (ptakeWhile1 (fun c => c ∈ usertypChars)) Typ.user

/-- `comment_line`: `preceded(sp, preceded(tag("//"), preceded(sp, take_until("\n"))))`. -/
def commentLine : Parser Str :=
  ppreceded sp (ppreceded (ptag (str "//")) (ppreceded sp ptakeUntilNl))

/-- `comment`: one or more comment lines. -/
def comment : Parser Comment :=
  pmap (pmany1 commentLine) (fun ls => Comment.mk ls)

/-- `fnmod`: `server` or `client`. -/
def fnmod : Parser FunctionModifier :=
  palt2 (pmap (ptag (str "server")) (fun _ => FunctionModifier.server))
    (pmap (ptag (str "client")) (fun _ => FunctionModifier.client))

/-- `fnmods`: `preceded(sp, separated_list(sp, fnmod))`. -/
def fnmods : Parser (List FunctionModifier) :=
  ppreceded sp (psepList sp fnmod)

/-!
The committed interior of each declaration: everything inside the
`context(..., cut(...))` that follows the construct's leading keyword. The
recursive sub-parsers are passed as parameters so these can be named outside
the mutual block.
-/

/-- Interior of `results` after `->` has matched. -/
def resultsInner (flds : Parser (List SchemaField)) : Parser (List SchemaField) :=
  pdelimited (pchar '(') flds (ppreceded sp (pchar ')'))

/-- Interior of `fndecl` after `fn` has matched. -/
def fndeclInner (flds rslts : Parser (List SchemaField)) (c : Option Comment)
    (mods : List FunctionModifier) : Parser FunctionDecl :=
  pmap
    (ptuple3 (ppreceded sp pid)
      (ppreceded sp (pcontext "parameter list"
        (pdelimited (pchar '(') flds (ppreceded sp (pchar ')')))))
      (popt rslts))
    (fun x => FunctionDecl.mk c mods.toFinset x.1 x.2.1 (x.2.2.getD []))

/-- Interior of `notifdecl` after `nf` has matched. -/
def notifdeclInner (flds : Parser (List SchemaField)) (c : Option Comment)
    (mods : List FunctionModifier) : Parser FunctionDecl :=
  pmap
    (ptuple2 (ppreceded sp pid)
      (ppreceded sp (pcontext "parameter list"
        (pdelimited (pchar '(') flds (ppreceded sp (pchar ')'))))))
    (fun x =>
      FunctionDecl.mk c (insert FunctionModifier.notification mods.toFinset)
        x.1 x.2 [])

/-- Interior of `structdecl` after `struct` has matched. -/
def structdeclInner (flds : Parser (List SchemaField)) (c : Option Comment) :
    Parser StructDecl :=
  pmap
    (ptuple2 (ppreceded sp pid)
      (ppreceded sp (pdelimited (pchar '{') flds (ppreceded sp (pchar '}')))))
    (fun x => StructDecl.mk c x.1 x.2)

/-- Interior of `nsdecl` after `namespace` has matched. -/
def nsdeclInner (body : Parser (List NamespaceItem)) (c : Option Comment) :
    Parser NamespaceDecl :=
  pmap
    (ptuple2 (pspaced pid)
      (pdelimited (pspaced (pchar '{')) body (pspaced (pchar '}'))))
    (fun x => NamespaceDecl.mk x.1 c x.2)

mutual

def maptyp : Nat → Parser Typ
  | 0 => fun i => .err [(i, "fuel")]
  | fuel+1 =>
    pmap
      (ppreceded (pterminated (pspaced (ptag (str "Map"))) (pspaced (pchar '<')))
        (pterminated (psepPair (pspaced (typ fuel)) (pchar ',') (pspaced (typ fuel)))
          (pspaced (pchar '>'))))
      (fun kv => Typ.map kv.1 kv.2)

def arraytyp : Nat → Parser Typ
  | 0 => fun i => .err [(i, "fuel")]
  | fuel+1 =>
    pmap
      (ppreceded (pterminated (pspaced (ptag (str "Array"))) (pspaced (pchar '<')))
        (pterminated (typ fuel) (pspaced (pchar '>'))))
      Typ.array

def optiontyp : Nat → Parser Typ
  | 0 => fun i => .err [(i, "fuel")]
  | fuel+1 =>
    pmap
      (ppreceded (pterminated (pspaced (ptag (str "Option"))) (pspaced (pchar '<')))
        (pterminated (typ fuel) (pspaced (pchar '>'))))
      Typ.option

def typ : Nat → Parser Typ
  | 0 => fun i => .err [(i, "fuel")]
  | fuel+1 =>
    palt2 (maptyp fuel)
      (palt2 (arraytyp fuel) (palt2 (optiontyp fuel) (palt2 basetyp usertyp)))

def field : Nat → Parser SchemaField
  | 0 => fun i => .err [(i, "fuel")]
  | fuel+1 =>
    pbind (popt comment) (fun c =>
      pbind (pspaced ploc) (fun _ =>
        pbind (pspaced pid) (fun name =>
          pmap
            (pspaced (pcontext "field"
              (pcut (ppreceded (pspaced (pchar ':')) (pspaced (typ fuel))))))
            (fun t => SchemaField.mk c name t))))

def fields : Nat → Parser (List SchemaField)
  | 0 => fun i => .err [(i, "fuel")]
  | fuel+1 =>
    pterminated (psepList (pspaced (pchar ',')) (field fuel))
      (popt (pspaced (pchar ',')))

def results : Nat → Parser (List SchemaField)
  | 0 => fun i => .err [(i, "fuel")]
  | fuel+1 =>
    pbind (pspaced (ptag (str "->"))) (fun _ =>
      pcontext "result list" (pcut (resultsInner (fields fuel))))

def fndecl : Nat → Parser FunctionDecl
  | 0 => fun i => .err [(i, "fuel")]
  | fuel+1 =>
    pbind (popt comment) (fun c =>
      pbind fnmods (fun mods =>
        pbind (pspaced (ptag (str "fn"))) (fun _ =>
          pbind (pspaced ploc) (fun _ =>
            pcontext "function declaration"
              (pcut (fndeclInner (fields fuel) (results fuel) c mods))))))

def notifdecl : Nat → Parser FunctionDecl
  | 0 => fun i => .err [(i, "fuel")]
  | fuel+1 =>
    pbind (popt comment) (fun c =>
      pbind fnmods (fun mods =>
        pbind (pspaced (ptag (str "nf"))) (fun _ =>
          pbind (pspaced ploc) (fun _ =>
            pcontext "notification declaration"
              (pcut (notifdeclInner (fields fuel) c mods))))))

def structdecl : Nat → Parser StructDecl
  | 0 => fun i => .err [(i, "fuel")]
  | fuel+1 =>
    pbind (popt comment) (fun c =>
      pbind (ppreceded sp (ptag (str "struct"))) (fun _ =>
        pbind (pspaced ploc) (fun _ =>
          pcontext "struct declaration"
            (pcut (structdeclInner (fields fuel) c)))))

def nsitem : Nat → Parser NamespaceItem
  | 0 => fun i => .err [(i, "fuel")]
  | fuel+1 =>
    palt2 (pmap (fndecl fuel) NamespaceItem.function)
      (palt2 (pmap (notifdecl fuel) NamespaceItem.function)
        (palt2 (pmap (structdecl fuel) NamespaceItem.struc)
          (pmap (nsdecl fuel) NamespaceItem.names)))

def nsbody : Nat → Parser (List NamespaceItem)
  | 0 => fun i => .err [(i, "fuel")]
  | fuel+1 =>
    pterminated (pmany0 (pspaced (nsitem fuel))) (pspaced (pmany0 commentLine))

def nsdecl : Nat → Parser NamespaceDecl
  | 0 => fun i => .err [(i, "fuel")]
  | fuel+1 =>
    pbind (popt comment) (fun c =>
      pbind (pterminated (ppreceded sp (ptag (str "namespace"))) sp) (fun _ =>
        pbind (pspaced ploc) (fun _ =>
          pcontext "namespace declaration"
            (pcut (nsdeclInner (nsbody fuel) c)))))

def module : Nat → Parser (List NamespaceDecl)
  | 0 => fun i => .err [(i, "fuel")]
  | fuel+1 =>
    pbind ploc (fun _ =>
      pallConsuming
        (pterminated (pmany0 (pspaced (nsdecl fuel)))
          (pspaced (pmany0 (pspaced commentLine)))))

end

/-- `fields` is the trailing-comma wrapper around this separated list. -/
def sepFields (fuel : Nat) : Parser (List SchemaField) :=
  psepList (pspaced (pchar ',')) (field fuel)

/-!
## Inversion lemmas for the combinators
-/

theorem pmap_eq_ok {α β : Type} {p : Parser α} {f : α → β} {i r : Str}
    {b : β} : pmap p f i = .ok r b ↔ ∃ a, p i = .ok r a ∧ b = f a := by
  unfold pmap
  cases h : p i <;> simp
  constructor
  · rintro ⟨rfl, rfl⟩
    exact ⟨_, ⟨rfl, rfl⟩, rfl⟩
  · rintro ⟨a, ⟨rfl, rfl⟩, rfl⟩
    exact ⟨rfl, rfl⟩

theorem pbind_eq_ok {α β : Type} {p : Parser α} {f : α → Parser β} {i r : Str}
    {b : β} :
    pbind p f i = .ok r b ↔ ∃ m a, p i = .ok m a ∧ f a m = .ok r b := by
  unfold pbind
  cases h : p i <;> simp
  constructor
  · intro hf
    exact ⟨_, _, ⟨rfl, rfl⟩, hf⟩
  · rintro ⟨m, a, ⟨rfl, rfl⟩, hf⟩
    exact hf

theorem pcut_eq_ok {α : Type} {p : Parser α} {i r : Str} {a : α} :
    pcut p i = .ok r a ↔ p i = .ok r a := by
  unfold pcut
  cases h : p i <;> simp

theorem pcontext_eq_ok {α : Type} {l : String} {p : Parser α} {i r : Str}
    {a : α} : pcontext l p i = .ok r a ↔ p i = .ok r a := by
  unfold pcontext
  cases h : p i <;> simp

/-!
## Claim C1: notifications never carry declared results
-/

/-- C1: whenever `notifdecl` succeeds — any modifiers, any trailing text —
the produced `FunctionDecl` has the `Notification` modifier in its modifier
set and an empty result list. -/
theorem claim_C1 (fuel : Nat) (i r : Str) (fd : FunctionDecl)
    (h : notifdecl fuel i = .ok r fd) :
    fd.results = [] ∧ FunctionModifier.notification ∈ fd.modifiers := by
  cases fuel with
  | zero => exact absurd h (by simp [notifdecl])
  | succ n =>
    simp only [notifdecl] at h
    rw [pbind_eq_ok] at h
    obtain ⟨m1, c, -, h⟩ := h
    rw [pbind_eq_ok] at h
    obtain ⟨m2, mods, -, h⟩ := h
    rw [pbind_eq_ok] at h
    obtain ⟨m3, -, -, h⟩ := h
    rw [pbind_eq_ok] at h
    obtain ⟨m4, -, -, h⟩ := h
    simp only [notifdeclInner] at h
    rw [pcontext_eq_ok, pcut_eq_ok, pmap_eq_ok] at h
    obtain ⟨x, -, hfd⟩ := h
    subst hfd
    exact ⟨rfl, Finset.mem_insert_self _ _⟩

/-- Input for the C1 witness. -/
def c1In : Str := str "nf ping(x: int32)"

/-- The declaration `nf ping(x: int32)` parses to. -/
def c1Fd : FunctionDecl :=
  ⟨none, insert FunctionModifier.notification (List.toFinset []),
    str "ping", [⟨none, str "x", Typ.base BaseType.int32⟩], []⟩

/-- Witness for C1 at the concrete input `nf ping(x: int32)`. -/
theorem claim_C1_witness :
    notifdecl 9 c1In = .ok [] c1Fd ∧
      (c1Fd.results = [] ∧ FunctionModifier.notification ∈ c1Fd.modifiers) :=
  ⟨by decide, claim_C1 9 c1In [] c1Fd (by decide)⟩

/-!
## Parsers that cannot produce a fatal error
-/

/-- A parser that never returns nom's fatal `Failure` (no `cut` inside). -/
def NoFail {α : Type} (p : Parser α) : Prop := ∀ i e, p i ≠ .fail e

theorem noFail_ptakeWhile (q : Char → Bool) : NoFail (ptakeWhile q) := by
  intro i e h
  simp [ptakeWhile] at h

theorem noFail_ptakeWhile1 (q : Char → Bool) : NoFail (ptakeWhile1 q) := by
  intro i e h
  unfold ptakeWhile1 at h
  split at h <;> simp_all

theorem noFail_ptag (s : Str) : NoFail (ptag s) := by
  intro i e h
  unfold ptag at h
  split at h <;> simp_all

theorem noFail_pchar (c : Char) : NoFail (pchar c) := by
  intro i e h
  unfold pchar at h
  split at h <;> (try split at h) <;> simp_all

theorem noFail_ptakeUntilNl : NoFail ptakeUntilNl := by
  intro i e h
  unfold ptakeUntilNl at h
  split at h <;> simp_all

theorem noFail_sp : NoFail sp := noFail_ptakeWhile _

theorem noFail_pbind {α β : Type} {p : Parser α} {f : α → Parser β}
    (hp : NoFail p) (hf : ∀ a, NoFail (f a)) : NoFail (pbind p f) := by
  intro i e h
  unfold pbind at h
  cases hpi : p i with
  | ok r a =>
    rw [hpi] at h
    exact hf _ _ _ h
  | err e2 =>
    rw [hpi] at h
    simp at h
  | fail e2 => exact hp _ _ hpi

theorem noFail_pmap {α β : Type} {p : Parser α} (f : α → β) (hp : NoFail p) :
    NoFail (pmap p f) := by
  intro i e h
  unfold pmap at h
  cases hpi : p i with
  | ok r a =>
    rw [hpi] at h
    simp at h
  | err e2 =>
    rw [hpi] at h
    simp at h
  | fail e2 => exact hp _ _ hpi

theorem noFail_ppreceded {α β : Type} {p : Parser α} {q : Parser β}
    (hp : NoFail p) (hq : NoFail q) : NoFail (ppreceded p q) :=
  noFail_pbind hp (fun _ => hq)

theorem noFail_pterminated {α β : Type} {p : Parser α} {q : Parser β}
    (hp : NoFail p) (hq : NoFail q) : NoFail (pterminated p q) :=
  noFail_pbind hp (fun _ => noFail_pmap _ hq)

theorem noFail_pspaced {α : Type} {p : Parser α} (hp : NoFail p) :
    NoFail (pspaced p) :=
  noFail_pterminated (noFail_ppreceded noFail_sp hp) noFail_sp

theorem noFail_pmany0Go {α : Type} {p : Parser α} (hp : NoFail p) (gas : Nat) :
    NoFail (pmany0Go p gas) := by
  induction gas with
  | zero => intro i e h; simp [pmany0Go] at h
  | succ n ih =>
    intro i e
    simp only [pmany0Go]
    cases hpi : p i with
    | ok rest a =>
      simp only [hpi]
      intro h
      split at h
      · cases hgo : pmany0Go p n rest with
        | ok r as => simp only [hgo] at h; cases h
        | err e2 => simp only [hgo] at h; cases h
        | fail e2 => exact ih _ _ hgo
      · cases h
    | err e2 =>
      simp only [hpi]
      intro h
      cases h
    | fail e2 =>
      simp only [hpi]
      intro _
      exact hp _ _ hpi

theorem noFail_pmany1 {α : Type} {p : Parser α} (hp : NoFail p) :
    NoFail (pmany1 p) := by
  intro i e
  simp only [pmany1]
  cases hpi : p i with
  | ok rest a =>
    simp only [hpi]
    intro h
    split at h
    · cases hgo : pmany0 p rest with
      | ok r as => simp only [hgo] at h; cases h
      | err e2 => simp only [hgo] at h; cases h
      | fail e2 => exact noFail_pmany0Go hp _ _ _ hgo
    · cases h
  | err e2 =>
    simp only [hpi]
    intro h
    cases h
  | fail e2 =>
    simp only [hpi]
    intro _
    exact hp _ _ hpi

/-- On a `NoFail` parser, `opt` always succeeds. -/
theorem popt_ok_of_noFail {α : Type} {p : Parser α} (hp : NoFail p) (i : Str) :
    ∃ r v, popt p i = .ok r v := by
  unfold popt
  cases h : p i with
  | ok r a => exact ⟨r, some a, rfl⟩
  | err e => exact ⟨i, none, rfl⟩
  | fail e => exact absurd h (hp i e)

theorem noFail_commentLine : NoFail commentLine :=
  noFail_ppreceded noFail_sp
    (noFail_ppreceded (noFail_ptag _) (noFail_ppreceded noFail_sp noFail_ptakeUntilNl))

theorem noFail_comment : NoFail comment :=
  noFail_pmap _ (noFail_pmany1 noFail_commentLine)

/-!
## Claim C8: a trailing comma in a field list is accepted and ignored
-/

/-- The `FunctionDecl` both spellings of the C8 example parse to. -/
def c8Fd : FunctionDecl :=
  ⟨none, List.toFinset [], str "f",
    [⟨none, str "a", Typ.base BaseType.int32⟩], []⟩

/-- C8: the optional trailing comma consumed by `fields` never changes the
parsed field list (the parsed value of `fields` is the parsed value of its
underlying separated list), and concretely `fn f(a: int32,)` and
`fn f(a: int32)` parse to the identical `FunctionDecl`. -/
theorem claim_C8 :
    (∀ fuel i, (fields (fuel + 1) i).val? = (sepFields fuel i).val?) ∧
      fndecl 9 (str "fn f(a: int32,)") = .ok [] c8Fd ∧
      fndecl 9 (str "fn f(a: int32)") = .ok [] c8Fd := by
  refine ⟨?_, by decide, by decide⟩
  intro fuel i
  simp only [fields, sepFields, pterminated, pbind]
  cases hs : psepList (pspaced (pchar ',')) (field fuel) i with
  | ok r v =>
    obtain ⟨r2, v2, hop⟩ :=
      popt_ok_of_noFail (p := pspaced (pchar ',')) (noFail_pspaced (noFail_pchar ',')) r
    simp [hop, pmap, PResult.val?]
  | err e => simp [PResult.val?]
  | fail e => simp [PResult.val?]

/-!
## Claim C9: comment attachment

The code attaches the run of comment lines parsed by `opt(comment)` at the
start of a declaration, and `sp` (consumed before each comment line and
before the keyword) also eats newlines, so blank lines do not break the
attachment. The claim's "a blank line breaks attachment" is refuted below.
-/

/-- The comment the leading `opt(comment)` of a declaration parses at a
given input. -/
def leadComment (i : Str) : Option Comment :=
  match comment i with
  | .ok _ c => some c
  | _ => none

theorem popt_comment_val {i m : Str} {v : Option Comment}
    (h : popt comment i = .ok m v) : v = leadComment i := by
  unfold popt at h
  unfold leadComment
  cases hc : comment i with
  | ok r a =>
    rw [hc] at h
    cases h
    rfl
  | err e2 =>
    rw [hc] at h
    cases h
    rfl
  | fail e2 => exact absurd hc (noFail_comment i e2)

/-- C9 (amended): the comment lines parsed at the head of a `namespace` or
`fn` declaration — blank lines or not — are exactly what ends up in the
declaration's comment field; the field is `none` exactly when no comment
line precedes the declaration. Concretely, an adjacent comment attaches and
an absent comment yields `none`. -/
theorem claim_C9 :
    (∀ fuel i r d, nsdecl fuel i = .ok r d → d.comment = leadComment i) ∧
      (∀ fuel i r fd, fndecl fuel i = .ok r fd → fd.comment = leadComment i) ∧
      nsdecl 9 (str "// hi\nnamespace foo \x7b\x7d") =
        .ok [] (NamespaceDecl.mk (str "foo") (some ⟨[str "hi"]⟩) []) ∧
      nsdecl 9 (str "namespace bar \x7b\x7d") =
        .ok [] (NamespaceDecl.mk (str "bar") none []) := by
  refine ⟨?_, ?_, by rfl, by rfl⟩
  · intro fuel i r d h
    cases fuel with
    | zero => exact absurd h (by simp [nsdecl])
    | succ n =>
      simp only [nsdecl] at h
      rw [pbind_eq_ok] at h
      obtain ⟨m1, c, hc, h⟩ := h
      rw [pbind_eq_ok] at h
      obtain ⟨m2, -, -, h⟩ := h
      rw [pbind_eq_ok] at h
      obtain ⟨m3, -, -, h⟩ := h
      simp only [nsdeclInner] at h
      rw [pcontext_eq_ok, pcut_eq_ok, pmap_eq_ok] at h
      obtain ⟨x, -, hd⟩ := h
      subst hd
      simpa [NamespaceDecl.comment] using popt_comment_val hc
  · intro fuel i r fd h
    cases fuel with
    | zero => exact absurd h (by simp [fndecl])
    | succ n =>
      simp only [fndecl] at h
      rw [pbind_eq_ok] at h
      obtain ⟨m1, c, hc, h⟩ := h
      rw [pbind_eq_ok] at h
      obtain ⟨m2, mods, -, h⟩ := h
      rw [pbind_eq_ok] at h
      obtain ⟨m3, -, -, h⟩ := h
      rw [pbind_eq_ok] at h
      obtain ⟨m4, -, -, h⟩ := h
      simp only [fndeclInner] at h
      rw [pcontext_eq_ok, pcut_eq_ok, pmap_eq_ok] at h
      obtain ⟨x, -, hd⟩ := h
      subst hd
      exact popt_comment_val hc

/-- C9 counterexample: with a blank line between the comment and the
declaration, the comment still attaches (the claim says the declaration
then carries no comment). -/
theorem claim_C9_counterexample :
    nsdecl 9 (str "// c\n\nnamespace foo \x7b\x7d") =
      .ok [] (NamespaceDecl.mk (str "foo") (some ⟨[str "c"]⟩) []) ∧
      (NamespaceDecl.mk (str "foo") (some ⟨[str "c"]⟩) []).comment ≠ none :=
  ⟨by rfl, by simp [NamespaceDecl.comment]⟩

/-- Witness for C9 at a concrete adjacent-comment input. -/
theorem claim_C9_witness :
    nsdecl 9 (str "// w\nnamespace w1 \x7b\x7d") =
      .ok [] (NamespaceDecl.mk (str "w1") (some ⟨[str "w"]⟩) []) ∧
      (NamespaceDecl.mk (str "w1") (some ⟨[str "w"]⟩) []).comment =
        leadComment (str "// w\nnamespace w1 \x7b\x7d") :=
  ⟨by rfl, claim_C9.1 9 (str "// w\nnamespace w1 \x7b\x7d") []
    (NamespaceDecl.mk (str "w1") (some ⟨[str "w"]⟩) []) (by rfl)⟩

/-!
## Claim C7: errors after a committed keyword are fatal and labelled
-/

/-- Inside `context(label, cut(p))`, any error of `p` — recoverable or
already fatal — surfaces as a fatal error extended with the labelled
location. -/
theorem pcontext_pcut_fatal {α : Type} {p : Parser α} {i : Str} {e : PError}
    (h : (p i).errInfo = some e) (lbl : String) :
    pcontext lbl (pcut p) i = .fail (e ++ [(i, lbl)]) := by
  unfold pcontext pcut
  cases hp : p i with
  | ok r a => rw [hp] at h; simp [PResult.errInfo] at h
  | err e2 =>
    rw [hp] at h
    simp only [PResult.errInfo, Option.some.injEq] at h
    subst h
    rfl
  | fail e2 =>
    rw [hp] at h
    simp only [PResult.errInfo, Option.some.injEq] at h
    subst h
    rfl

/-- C7: for each construct, once the leading keyword (`namespace`, `fn`,
`nf`, `struct`, `->`) has matched, any failure of the committed interior
yields a fatal `Failure` carrying the construct's context label and its
location; and `alt` (here `nsitem`) never retries another grammar rule after
such a fatal error. -/
theorem claim_C7 :
    (∀ fuel i i1 c i2 kw i3 e,
        popt comment i = .ok i1 c →
        pterminated (ppreceded sp (ptag (str "namespace"))) sp i1 = .ok i2 kw →
        pspaced ploc i2 = .ok i3 () →
        (nsdeclInner (nsbody fuel) c i3).errInfo = some e →
        nsdecl (fuel + 1) i = .fail (e ++ [(i3, "namespace declaration")]) ∧
          "namespace declaration" ∈
            (e ++ [(i3, "namespace declaration")]).map Prod.snd) ∧
    (∀ fuel i i1 c i2 mods i3 kw i4 e,
        popt comment i = .ok i1 c →
        fnmods i1 = .ok i2 mods →
        pspaced (ptag (str "fn")) i2 = .ok i3 kw →
        pspaced ploc i3 = .ok i4 () →
        (fndeclInner (fields fuel) (results fuel) c mods i4).errInfo = some e →
        fndecl (fuel + 1) i = .fail (e ++ [(i4, "function declaration")]) ∧
          "function declaration" ∈
            (e ++ [(i4, "function declaration")]).map Prod.snd) ∧
    (∀ fuel i i1 c i2 mods i3 kw i4 e,
        popt comment i = .ok i1 c →
        fnmods i1 = .ok i2 mods →
        pspaced (ptag (str "nf")) i2 = .ok i3 kw →
        pspaced ploc i3 = .ok i4 () →
        (notifdeclInner (fields fuel) c mods i4).errInfo = some e →
        notifdecl (fuel + 1) i =
            .fail (e ++ [(i4, "notification declaration")]) ∧
          "notification declaration" ∈
            (e ++ [(i4, "notification declaration")]).map Prod.snd) ∧
    (∀ fuel i i1 c i2 kw i3 e,
        popt comment i = .ok i1 c →
        ppreceded sp (ptag (str "struct")) i1 = .ok i2 kw →
        pspaced ploc i2 = .ok i3 () →
        (structdeclInner (fields fuel) c i3).errInfo = some e →
        structdecl (fuel + 1) i = .fail (e ++ [(i3, "struct declaration")]) ∧
          "struct declaration" ∈
            (e ++ [(i3, "struct declaration")]).map Prod.snd) ∧
    (∀ fuel i i1 kw e,
        pspaced (ptag (str "->")) i = .ok i1 kw →
        (resultsInner (fields fuel) i1).errInfo = some e →
        results (fuel + 1) i = .fail (e ++ [(i1, "result list")]) ∧
          "result list" ∈ (e ++ [(i1, "result list")]).map Prod.snd) ∧
    (∀ fuel i e, fndecl fuel i = .fail e → nsitem (fuel + 1) i = .fail e) := by
  refine ⟨?_, ?_, ?_, ?_, ?_, ?_⟩
  · intro fuel i i1 c i2 kw i3 e h1 h2 h3 h4
    refine ⟨?_, by simp⟩
    simp only [nsdecl, pbind, h1, h2, h3]
    exact pcontext_pcut_fatal h4 _
  · intro fuel i i1 c i2 mods i3 kw i4 e h1 h2 h3 h4 h5
    refine ⟨?_, by simp⟩
    simp only [fndecl, pbind, h1, h2, h3, h4]
    exact pcontext_pcut_fatal h5 _
  · intro fuel i i1 c i2 mods i3 kw i4 e h1 h2 h3 h4 h5
    refine ⟨?_, by simp⟩
    simp only [notifdecl, pbind, h1, h2, h3, h4]
    exact pcontext_pcut_fatal h5 _
  · intro fuel i i1 c i2 kw i3 e h1 h2 h3 h4
    refine ⟨?_, by simp⟩
    simp only [structdecl, pbind, h1, h2, h3]
    exact pcontext_pcut_fatal h4 _
  · intro fuel i i1 kw e h1 h2
    refine ⟨?_, by simp⟩
    simp only [results, pbind, h1]
    exact pcontext_pcut_fatal h2 _
  · intro fuel i e h
    simp [nsitem, palt2, pmap, h]

/-- Witness for C7: concrete truncated declarations for each construct,
each producing the expected fatal, labelled error. -/
theorem claim_C7_witness :
    nsdecl 9 (str "namespace foo \x7b") =
        .fail [(([] : Str), "char"), (str "foo \x7b", "namespace declaration")] ∧
      fndecl 9 (str "fn f(") =
        .fail [(([] : Str), "char"), (str "(", "parameter list"),
          (str "f(", "function declaration")] ∧
      notifdecl 9 (str "nf ping") =
        .fail [(([] : Str), "char"), (([] : Str), "parameter list"),
          (str "ping", "notification declaration")] ∧
      structdecl 9 (str "struct S (") =
        .fail [(str "(", "char"), (str "S (", "struct declaration")] ∧
      results 9 (str "-> 3") =
        .fail [(str "3", "char"), (str "3", "result list")] ∧
      nsitem 9 (str "fn f(") =
        .fail [(([] : Str), "char"), (str "(", "parameter list"),
          (str "f(", "function declaration")] := by
  refine ⟨?_, ?_, ?_, ?_, ?_, ?_⟩
  · exact (claim_C7.1 8 (str "namespace foo \x7b") (str "namespace foo \x7b")
      none (str "foo \x7b") (str "namespace") (str "foo \x7b")
      [(([] : Str), "char")] (by rfl) (by rfl) (by rfl) (by rfl)).1
  · exact (claim_C7.2.1 8 (str "fn f(") (str "fn f(") none (str "fn f(") []
      (str "f(") (str "fn") (str "f(")
      [(([] : Str), "char"), (str "(", "parameter list")]
      (by rfl) (by rfl) (by rfl) (by rfl) (by rfl)).1
  · exact (claim_C7.2.2.1 8 (str "nf ping") (str "nf ping") none
      (str "nf ping") [] (str "ping") (str "nf") (str "ping")
      [(([] : Str), "char"), (([] : Str), "parameter list")]
      (by rfl) (by rfl) (by rfl) (by rfl) (by rfl)).1
  · exact (claim_C7.2.2.2.1 8 (str "struct S (") (str "struct S (") none
      (str " S (") (str "struct") (str "S (") [(str "(", "char")]
      (by rfl) (by rfl) (by rfl) (by rfl)).1
  · exact (claim_C7.2.2.2.2.1 8 (str "-> 3") (str "3") (str "->")
      [(str "3", "char")] (by rfl) (by rfl)).1
  · exact claim_C7.2.2.2.2.2 8 (str "fn f(")
      [(([] : Str), "char"), (str "(", "parameter list"),
        (str "f(", "function declaration")] (by rfl)

/-!
## Claim C10: the user-type fallback
-/

/-- C10: when the bracketed forms (`Map`, `Array`, `Option`) and the
base-type keywords all fail to match, `typ` is exactly the `usertyp`
fallback; `usertyp` accepts any nonempty run of identifier characters plus
angle brackets as a single `User` reference; concretely the lowercased
`array<int32>` parses as one `User` token. -/
theorem claim_C10 :
    (∀ fuel i e1 e2 e3 e4,
        maptyp fuel i = .err e1 →
        arraytyp fuel i = .err e2 →
        optiontyp fuel i = .err e3 →
        basetyp i = .err e4 →
        typ (fuel + 1) i = usertyp i) ∧
      (∀ i m, i.takeWhile (fun c => c ∈ usertypChars) = m → m ≠ [] →
        usertyp i =
          .ok (i.dropWhile (fun c => c ∈ usertypChars)) (Typ.user m)) ∧
      typ 9 (str "array<int32>") = .ok [] (Typ.user (str "array<int32>")) := by
  refine ⟨?_, ?_, by rfl⟩
  · intro fuel i e1 e2 e3 e4 h1 h2 h3 h4
    simp only [typ, palt2, h1, h2, h3, h4]
  · intro i m hm hne
    unfold usertyp pmap ptakeWhile1
    rw [hm]
    cases m with
    | nil => exact absurd rfl hne
    | cons a as => rfl

/-- Witness for C10 at `array<int32>`: the three bracketed forms and the
base-type keywords all err, so `typ` falls through to `usertyp`. -/
theorem claim_C10_witness :
    maptyp 8 (str "array<int32>") = .err [(str "array<int32>", "tag")] ∧
      arraytyp 8 (str "array<int32>") = .err [(str "array<int32>", "tag")] ∧
      optiontyp 8 (str "array<int32>") = .err [(str "array<int32>", "tag")] ∧
      basetyp (str "array<int32>") = .err [(str "array<int32>", "tag")] ∧
      typ 9 (str "array<int32>") = usertyp (str "array<int32>") :=
  ⟨by rfl, by rfl, by rfl, by rfl,
    claim_C10.1 8 (str "array<int32>") [(str "array<int32>", "tag")]
      [(str "array<int32>", "tag")] [(str "array<int32>", "tag")]
      [(str "array<int32>", "tag")] (by rfl) (by rfl) (by rfl) (by rfl)⟩

/-!
## String utilities shared by the code-generation layers

`joinSep` models `Vec::join`, `splitOnDot` models `str::split('.')`,
`replaceDots` models `str::replace(".", "__")` for the one-character pattern
used in the source, `toLowerStr` models `str::to_lowercase` on ASCII, and
`strRepeat` models `str::repeat`.
-/

def joinSep (sep : Str) : List Str → Str
  | [] => []
  | [x] => x
  | x :: r => x ++ sep ++ joinSep sep r

def splitOnDotAux : Str → Str → List Str
  | [], acc => [acc.reverse]
  | c :: r, acc =>
    if c = '.' then acc.reverse :: splitOnDotAux r []
    else splitOnDotAux r (c :: acc)

def splitOnDot (s : Str) : List Str := splitOnDotAux s []

def replaceDots (s : Str) : Str :=
  s.flatMap (fun c => if c = '.' then str "__" else [c])

def toLowerStr (s : Str) : Str := s.map Char.toLower

def strRepeat (s : Str) : Nat → Str
  | 0 => []
  | n + 1 => s ++ strRepeat s n

theorem joinSep_cons (sep : Str) (x : Str) (y : Str) (r : List Str) :
    joinSep sep (x :: y :: r) = x ++ sep ++ joinSep sep (y :: r) := rfl

theorem splitOnDotAux_ne_nil (cs acc : Str) : splitOnDotAux cs acc ≠ [] := by
  induction cs generalizing acc with
  | nil => simp [splitOnDotAux]
  | cons c r ih =>
    unfold splitOnDotAux
    split
    · simp
    · exact ih _

theorem joinSep_splitOnDotAux (cs acc : Str) :
    joinSep (str ".") (splitOnDotAux cs acc) = acc.reverse ++ cs := by
  induction cs generalizing acc with
  | nil => simp [splitOnDotAux, joinSep]
  | cons c r ih =>
    unfold splitOnDotAux
    split
    · rename_i hc
      subst hc
      cases hrec : splitOnDotAux r [] with
      | nil => exact absurd hrec (splitOnDotAux_ne_nil r [])
      | cons y ys =>
        rw [joinSep_cons]
        rw [← hrec, ih []]
        simp [str]
    · rw [ih (c :: acc)]
      simp

/-- Re-joining the dot-split of a string with dots gives the string back:
this is why the wire method name survives the `Fun` token round-trip
exactly. -/
theorem joinSep_splitOnDot (s : Str) : joinSep (str ".") (splitOnDot s) = s := by
  simpa using joinSep_splitOnDotAux s []

/-!
## Case conversion (heck) and the naming layer of src/src/ast/anchored.rs

`toCamelCase` models `heck::CamelCase` on ASCII identifiers: words are split
on underscores and on lower-to-upper transitions, each word is capitalised
and the remainder lowercased (the acronym-splitting refinement of heck is
not needed for schema identifiers).

A `Stack` is modelled by the list of its frames' names: the modelled code
consults frames only through `Frame::name()`.
-/

def splitWordsAux : Str → Str → List Str
  | [], acc => if acc.isEmpty then [] else [acc.reverse]
  | c :: rest, acc =>
    if c = '_' then
      if acc.isEmpty then splitWordsAux rest []
      else acc.reverse :: splitWordsAux rest []
    else if c.isUpper &&
        (match acc with
          | p :: _ => p.isLower || p.isDigit
          | [] => false) then
      acc.reverse :: splitWordsAux rest [c]
    else splitWordsAux rest (c :: acc)

def capWord : Str → Str
  | [] => []
  | c :: r => c.toUpper :: r.map Char.toLower

def toCamelCase (s : Str) : Str := ((splitWordsAux s []).map capWord).flatten

/-- `Anchored::<&FunctionDecl>::names`: every enclosing frame's name plus
the node's own name. -/
def anchoredNames (stack : List Str) (name : Str) : List Str := stack ++ [name]

/-- `Anchored::<&FunctionDecl>::variant`: CamelCase each chain element and
join with `_`. -/
def anchoredVariant (stack : List Str) (name : Str) : Str :=
  joinSep (str "_") ((anchoredNames stack name).map toCamelCase)

/-- `Anchored::<&FunctionDecl>::method`: the dot-joined chain. -/
def anchoredMethod (stack : List Str) (name : Str) : Str :=
  joinSep (str ".") (anchoredNames stack name)

/-- `Anchored::<&FunctionDecl>::qualified_name`: the `__`-joined chain. -/
def anchoredQualifiedName (stack : List Str) (name : Str) : Str :=
  joinSep (str "__") (anchoredNames stack name)

/-- `Anchored::<&FunctionDecl>::module`: the `::`-joined chain. -/
def anchoredModule (stack : List Str) (name : Str) : Str :=
  joinSep (str "::") (anchoredNames stack name)

/-- `Stack::root`: `"super::".repeat(self.frames.len() + 1)`. -/
def stackRoot (frames : List Str) : Str :=
  strRepeat (str "super::") (frames.length + 1)

/-- `Stack::protocol`: the escape prefix followed by `protocol`. -/
def stackProtocol (frames : List Str) : Str := stackRoot frames ++ str "protocol"

/-- `Atom::root` (src/lavish/src/codegen/rust/ir.rs): `"super::".repeat(self.depth)`. -/
def atomRoot (depth : Nat) : Str := strRepeat (str "super::") depth

/-!
## AST consumed by src/src (new generation)

The node definitions are not under src/; the fields are the ones the
modelled code reads: `name`, `side`, optional nested `body` for functions,
`name` and `body` for namespaces, `functions` and `namespaces` for bodies.
-/

inductive Side where
  | server | client
deriving DecidableEq

mutual

inductive NFunctionDecl where
  | mk (name : Str) (side : Side) (body : Option NNamespaceBody)

inductive NNamespaceDecl where
  | mk (name : Str) (body : NNamespaceBody)

inductive NNamespaceBody where
  | mk (functions : List NFunctionDecl) (namespaces : List NNamespaceDecl)

end

def NFunctionDecl.name : NFunctionDecl → Str
  | .mk n _ _ => n

def NFunctionDecl.side : NFunctionDecl → Side
  | .mk _ s _ => s

def NFunctionDecl.body : NFunctionDecl → Option NNamespaceBody
  | .mk _ _ b => b

/-!
Traversals of src/src/ast/anchored.rs, yielding `(stack, function)` pairs in
visit order.
-/

mutual

/-- `for_each_fun_of_interface` on a body: local functions first (without
descending into their bodies), then child namespaces. -/
def interfaceFunsB (stack : List Str) : NNamespaceBody →
    List (List Str × NFunctionDecl)
  | .mk fns nss => interfaceFunsF stack fns ++ interfaceFunsN stack nss

def interfaceFunsF (stack : List Str) : List NFunctionDecl →
    List (List Str × NFunctionDecl)
  | [] => []
  | f :: r => (stack, f) :: interfaceFunsF stack r

def interfaceFunsN (stack : List Str) : List NNamespaceDecl →
    List (List Str × NFunctionDecl)
  | [] => []
  | .mk n b :: r => interfaceFunsB (stack ++ [n]) b ++ interfaceFunsN stack r

end

mutual

/-- `for_each_fun_of_schema` on a body: for each local function, the
functions of its nested body come first and the function's own entry comes
after them; then the child namespaces. -/
def schemaFunsB (stack : List Str) : NNamespaceBody →
    List (List Str × NFunctionDecl)
  | .mk fns nss => schemaFunsF stack fns ++ schemaFunsN stack nss

def schemaFunsF (stack : List Str) : List NFunctionDecl →
    List (List Str × NFunctionDecl)
  | [] => []
  | .mk n sd b :: r =>
    ((match b with
      | some bb => schemaFunsB (stack ++ [n]) bb
      | none => []) ++ [(stack, NFunctionDecl.mk n sd b)]) ++ schemaFunsF stack r

def schemaFunsN (stack : List Str) : List NNamespaceDecl →
    List (List Str × NFunctionDecl)
  | [] => []
  | .mk n b :: r => schemaFunsB (stack ++ [n]) b ++ schemaFunsN stack r

end

/-- `Handler::for_each_fun`: the interface traversal filtered to one side
(`filter_fun_side`). -/
def handlerFuns (side : Side) (stack : List Str) (b : NNamespaceBody) :
    List (List Str × NFunctionDecl) :=
  (interfaceFunsB stack b).filter (fun p => decide (p.2.side = side))

/-- The registration surface generated by `Handler::define_handler` /
`write_on_body`: per function one slot, keyed by `qualified_name`, whose
adapter matches and wraps with `variant`. -/
def handlerSlots (side : Side) (stack : List Str) (b : NNamespaceBody) :
    List (Str × Str) :=
  (handlerFuns side stack b).map
    (fun p => (anchoredQualifiedName p.1 p.2.name, anchoredVariant p.1 p.2.name))

/-!
## AST consumed by src/lavish/src/codegen/rust/ir.rs (old generation)

Field set taken from the accesses in ir.rs: a function has a name, a
modifier set (`HashSet<FunctionModifier>`, modelled as a `Finset`) and an
optional nested body; a namespace body has functions, structs and child
namespaces. A struct is modelled by its name (ir.rs reads nothing else
that the claims concern).
-/

structure OStructDecl where
  name : Str
deriving DecidableEq

mutual

inductive OFunctionDecl where
  | mk (name : Str) (modifiers : Finset FunctionModifier)
      (body : Option ONamespaceBody)

inductive ONamespaceDecl where
  | mk (name : Str) (body : ONamespaceBody)

inductive ONamespaceBody where
  | mk (functions : List OFunctionDecl) (structs : List OStructDecl)
      (namespaces : List ONamespaceDecl)

end

def OFunctionDecl.name : OFunctionDecl → Str
  | .mk n _ _ => n

def OFunctionDecl.modifiers : OFunctionDecl → Finset FunctionModifier
  | .mk _ m _ => m

def OFunctionDecl.body : OFunctionDecl → Option ONamespaceBody
  | .mk _ _ b => b

def ONamespaceDecl.name : ONamespaceDecl → Str
  | .mk n _ => n

def ONamespaceDecl.body : ONamespaceDecl → ONamespaceBody
  | .mk _ b => b

/-!
## The IR (Namespace / Fun / Stru) of ir.rs
-/

mutual

inductive IrFun where
  | mk (decl : OFunctionDecl) (tokens : List Str) (body : Option IrNamespace)

inductive IrNamespace where
  | mk (name : Str) (children : List (Str × IrNamespace))
      (funs : List (Str × IrFun)) (strus : List (Str × Str))

end

def IrFun.decl : IrFun → OFunctionDecl
  | .mk d _ _ => d

def IrFun.tokens : IrFun → List Str
  | .mk _ t _ => t

def IrFun.body : IrFun → Option IrNamespace
  | .mk _ _ b => b

def IrNamespace.children : IrNamespace → List (Str × IrNamespace)
  | .mk _ c _ _ => c

def IrNamespace.funs : IrNamespace → List (Str × IrFun)
  | .mk _ _ f _ => f

/-- `IndexMap::insert`: an existing key keeps its position and gets the new
value; a new key is appended. -/
def indexMapInsert {β : Type} (m : List (Str × β)) (k : Str) (v : β) :
    List (Str × β) :=
  if m.any (fun p => decide (p.1 = k)) then
    m.map (fun p => if p.1 = k then (k, v) else p)
  else m ++ [(k, v)]

/-- The name `Namespace::new` treats as the root marker. -/
def rootMarker : Str := str "<root>"

/-- `Stru` insertion loop of `Namespace::new` (a `Stru` is modelled by its
computed `full_name`). -/
def strusFold (pfx : Str) (acc : List (Str × Str)) :
    List OStructDecl → List (Str × Str)
  | [] => acc
  | d :: rest => strusFold pfx (indexMapInsert acc d.name (pfx ++ d.name)) rest

mutual

/-- `Namespace::new`: computes the inner prefix (empty at the root marker,
otherwise `prefix + name + "."`) and folds the three insertion loops. -/
def nsNew (pfx : Str) (name : Str) : ONamespaceBody → IrNamespace
  | .mk fns strs nss =>
    let pfx2 := if name = rootMarker then [] else pfx ++ name ++ str "."
    IrNamespace.mk name (childrenFold pfx2 [] nss) (funsFold pfx2 [] fns)
      (strusFold pfx2 [] strs)

def childrenFold (pfx : Str) (acc : List (Str × IrNamespace)) :
    List ONamespaceDecl → List (Str × IrNamespace)
  | [] => acc
  | .mk n b :: rest =>
    childrenFold pfx (indexMapInsert acc n (nsNew pfx n b)) rest

def funsFold (pfx : Str) (acc : List (Str × IrFun)) :
    List OFunctionDecl → List (Str × IrFun)
  | [] => acc
  | d :: rest => funsFold pfx (indexMapInsert acc d.name (funNew pfx d)) rest

/-- `Fun::new`: the token chain is the dot-split of `prefix + name`; a
nested body becomes a child `Namespace` built with the same prefix. -/
def funNew (pfx : Str) : OFunctionDecl → IrFun
  | .mk n mods b =>
    IrFun.mk (.mk n mods b) (splitOnDot (pfx ++ n))
      (match b with
        | some bb => some (nsNew pfx n bb)
        | none => none)

end

/-- `Fun::rpc_name`: `tokens.join(".")`. -/
def IrFun.rpcName (f : IrFun) : Str := joinSep (str ".") f.tokens

/-- `Fun::variant`: `rpc_name().replace(".", "__").to_lowercase()`. -/
def IrFun.variant (f : IrFun) : Str := toLowerStr (replaceDots f.rpcName)

/-- `Fun::qualified_name`: `tokens.join("::")`. -/
def IrFun.qualifiedName (f : IrFun) : Str := joinSep (str "::") f.tokens

inductive FunKind where
  | request | notification
deriving DecidableEq

/-- `Fun::is_notification` / `Fun::kind`. -/
def OFunctionDecl.kind (d : OFunctionDecl) : FunKind :=
  if FunctionModifier.notification ∈ d.modifiers then .notification
  else .request

def IrFun.kind (f : IrFun) : FunKind := f.decl.kind

mutual

/-- `Fun::funs`: the function itself, then its nested body's functions. -/
def funFuns : IrFun → List IrFun
  | .mk d t b =>
    IrFun.mk d t b ::
      (match b with
        | some ns => nsFuns ns
        | none => [])

/-- `Namespace::funs`: child namespaces' functions first, then the local
functions (each expanded through `Fun::funs`). -/
def nsFuns : IrNamespace → List IrFun
  | .mk _ children funs _ => childrenFuns children ++ localFuns funs

def childrenFuns : List (Str × IrNamespace) → List IrFun
  | [] => []
  | (_, c) :: r => nsFuns c ++ childrenFuns r

def localFuns : List (Str × IrFun) → List IrFun
  | [] => []
  | (_, f) :: r => funFuns f ++ localFuns r

end

/-- The kind filter of `Atom::funs`. -/
def atomFilter (kind : FunKind) (funs : List IrFun) : List IrFun :=
  funs.filter (fun f => decide (f.kind = kind))

/-- The enum-definition loop of the `Atom` `Display` impl: one case
identifier per function of the atom's kind. -/
def atomCaseIds (kind : FunKind) (funs : List IrFun) : List Str :=
  (atomFilter kind funs).map IrFun.variant

/-- The `method` match loop of the `Atom` `Display` impl: per case, the
pattern identifier and the returned method-name string. -/
def atomMethodArms (kind : FunKind) (funs : List IrFun) : List (Str × Str) :=
  (atomFilter kind funs).map (fun f => (f.variant, f.rpcName))

/-!
## Claim C2: one case convention, bit-for-bit consistent
-/

/-- Modelled from the spec: the new-generation protocol generator that
defines the dispatch tagged-union's cases is not under src/ (only the
handler generator that constructs the cases is). Per the spec, it derives
each case identifier from the function's name chain under the single
exposed convention — PascalCase words joined by the flattening separator. -/
def specUnionVariant (chain : List Str) : Str :=
  joinSep (str "_") (chain.map toCamelCase)

/-- C2: re-deriving a variant from the same name chain yields identical
strings. (i) The spec-modelled union-defining generator and the handler
generator (`Anchored::variant`) agree character for character on every
chain; (ii) hence every handler slot's match/wrap variant equals the union
case identifier of its chain; (iii) in the old generation, the `Atom` enum
definition loop and the `Atom::method` match loop derive the identical case
identifier list from the same functions. -/
theorem claim_C2 :
    (∀ stack fname,
        specUnionVariant (anchoredNames stack fname) =
          anchoredVariant stack fname) ∧
      (∀ side stack b,
        (handlerSlots side stack b).map Prod.snd =
          (handlerFuns side stack b).map
            (fun p => specUnionVariant (anchoredNames p.1 p.2.name))) ∧
      (∀ kind funs,
        atomCaseIds kind funs = (atomMethodArms kind funs).map Prod.fst) := by
  refine ⟨fun stack fname => rfl, ?_, ?_⟩
  · intro side stack b
    simp only [handlerSlots, List.map_map]
    rfl
  · intro kind funs
    simp only [atomCaseIds, atomMethodArms, List.map_map]
    rfl

/-!
## Claim C5: the root() escape prefix
-/

theorem strRepeat_eq_replicate (s : Str) (n : Nat) :
    strRepeat s n = (List.replicate n s).flatten := by
  induction n with
  | zero => rfl
  | succ m ih => simp [strRepeat, List.replicate, ih]

/-- C5 (amended): `Stack::root` repeats the escape step once per enclosing
frame **plus one** (the extra step crosses the wrapper module the generated
code lives in); `Atom::root` repeats it exactly `depth` times. -/
theorem claim_C5 :
    (∀ frames : List Str,
        stackRoot frames =
          (List.replicate (frames.length + 1) (str "super::")).flatten) ∧
      (∀ d : Nat, atomRoot d = (List.replicate d (str "super::")).flatten) :=
  ⟨fun _ => strRepeat_eq_replicate _ _, fun _ => strRepeat_eq_replicate _ _⟩

/-- C5 counterexample: with zero enclosing frames the claim demands an empty
prefix, but `Stack::root` still emits one `super::` step. -/
theorem claim_C5_counterexample :
    stackRoot [] = str "super::" ∧
      stackRoot [] ≠
        (List.replicate (List.length ([] : List Str)) (str "super::")).flatten :=
  ⟨rfl, by decide⟩

/-!
## Claim C6: the generated handler adapter

`slotAdapter` transcribes the closure emitted by `Handler::write_on_body`
(src/src/codegen/rust/ir/handler.rs, lines 82-112): match the incoming
`Params` union instance against the slot's own case, binding its payload;
on any other case return `Err(WrongParams)`; on a match build the
`Call { state, client, params }` context, invoke the callback and wrap its
result into the slot's `Results` case. A tagged-union instance is modelled
as its case identifier plus payload.
-/

inductive HandlerError where
  | wrongParams | methodNotFound
deriving DecidableEq

structure CallCtx (T C P : Type) where
  state : T
  client : C
  params : P
deriving DecidableEq

inductive AtomCase (P : Type) where
  | mk (variant : Str) (payload : P)
deriving DecidableEq

def AtomCase.variant {P : Type} : AtomCase P → Str
  | .mk v _ => v

def slotAdapter {T C P R : Type} (v : Str)
    (cb : CallCtx T C P → Except HandlerError R) (state : T) (client : C)
    (params : AtomCase P) : Except HandlerError (AtomCase R) :=
  match params with
  | .mk tag p =>
    if tag = v then (cb ⟨state, client, p⟩).map (fun res => AtomCase.mk v res)
    else .error .wrongParams

/-- `write_on_body` computes the one variant it uses for both the `Params`
match and the `Results` wrap from the slot's own function (`f.variant()`). -/
def slotAdapterFor {T C P R : Type} (stack : List Str) (fname : Str)
    (cb : CallCtx T C P → Except HandlerError R) :
    T → C → AtomCase P → Except HandlerError (AtomCase R) :=
  slotAdapter (anchoredVariant stack fname) cb

/-- C6: (i) slots exist exactly for the side's functions, keyed by qualified
name with the function's own variant; (ii) an incoming instance in any
other case yields `WrongParams`, for every callback (the callback is not
consulted); (iii) an instance in the slot's own case invokes the callback
on the `Call` context and wraps the result into the same function's
`Results` case; (iv) any successful adapter result is tagged with the
slot's own variant. -/
theorem claim_C6 :
    (∀ side stack b,
        handlerSlots side stack b =
          ((interfaceFunsB stack b).filter (fun p => decide (p.2.side = side))).map
            (fun p =>
              (anchoredQualifiedName p.1 p.2.name, anchoredVariant p.1 p.2.name))) ∧
      (∀ (T C P R : Type) stack fname
          (cb : CallCtx T C P → Except HandlerError R) (s : T) (c : C) tag
          (p : P), tag ≠ anchoredVariant stack fname →
          slotAdapterFor stack fname cb s c (.mk tag p) = .error .wrongParams) ∧
      (∀ (T C P R : Type) stack fname
          (cb : CallCtx T C P → Except HandlerError R) (s : T) (c : C)
          (p : P),
          slotAdapterFor stack fname cb s c
              (.mk (anchoredVariant stack fname) p) =
            (cb ⟨s, c, p⟩).map (fun r => .mk (anchoredVariant stack fname) r)) ∧
      (∀ (T C P R : Type) stack fname
          (cb : CallCtx T C P → Except HandlerError R) (s : T) (c : C) inst
          out, slotAdapterFor stack fname cb s c inst = .ok out →
          out.variant = anchoredVariant stack fname) := by
  refine ⟨fun side stack b => rfl, ?_, ?_, ?_⟩
  · intro T C P R stack fname cb s c tag p hne
    simp [slotAdapterFor, slotAdapter, hne]
  · intro T C P R stack fname cb s c p
    simp [slotAdapterFor, slotAdapter]
  · intro T C P R stack fname cb s c inst out h
    cases inst with
    | mk tag p =>
      simp only [slotAdapterFor, slotAdapter] at h
      split at h
      · cases hcb : cb ⟨s, c, p⟩ with
        | ok r =>
          rw [hcb] at h
          cases h
          rfl
        | error e =>
          rw [hcb] at h
          cases h
      · cases h

/-- Witness for C6: a slot for `math.add` (variant `Math_Add`) rejects a
`Math_Sub` instance with `WrongParams` and accepts its own case, tagging
the result with its own variant. -/
theorem claim_C6_witness :
    (str "Math_Sub" ≠ anchoredVariant [str "math"] (str "add")) ∧
      slotAdapterFor (T := Nat) (C := Nat) (P := Nat) (R := Nat)
          [str "math"] (str "add") (fun call => .ok call.params) 0 0
          (.mk (str "Math_Sub") 5) = .error .wrongParams ∧
      slotAdapterFor (T := Nat) (C := Nat) (P := Nat) (R := Nat)
          [str "math"] (str "add") (fun call => .ok call.params) 0 0
          (.mk (str "Math_Add") 5) = .ok (.mk (str "Math_Add") 5) ∧
      (AtomCase.mk (str "Math_Add") 5).variant =
        anchoredVariant [str "math"] (str "add") :=
  ⟨by decide,
    claim_C6.2.1 Nat Nat Nat Nat [str "math"] (str "add")
      (fun call => .ok call.params) 0 0 (str "Math_Sub") 5 (by decide),
    by rfl,
    claim_C6.2.2.2 Nat Nat Nat Nat [str "math"] (str "add")
      (fun call => .ok call.params) 0 0 (.mk (str "Math_Add") 5)
      (.mk (str "Math_Add") 5) (by rfl)⟩

/-!
## Chain-level specification of the IR traversal (claims C3, C4)

`specBody`/`specNss`/`specFns` compute, directly on the AST, the list of
(name chain, declaration) pairs in exactly the order `Namespace::funs`
visits functions: all child namespaces' functions first, then each local
function — its own entry first, then its nested body's functions.
-/

def ONamespaceBody.functions : ONamespaceBody → List OFunctionDecl
  | .mk f _ _ => f

def ONamespaceBody.namespaces : ONamespaceBody → List ONamespaceDecl
  | .mk _ _ n => n

mutual

def specBody (pre : List Str) : ONamespaceBody →
    List (List Str × OFunctionDecl)
  | .mk fns _ nss => specNss pre nss ++ specFns pre fns

def specNss (pre : List Str) : List ONamespaceDecl →
    List (List Str × OFunctionDecl)
  | [] => []
  | .mk n b :: r => specBody (pre ++ [n]) b ++ specNss pre r

def specFns (pre : List Str) : List OFunctionDecl →
    List (List Str × OFunctionDecl)
  | [] => []
  | .mk n mods b :: r =>
    ((pre ++ [n], OFunctionDecl.mk n mods b) ::
        (match b with
          | some bb => specBody (pre ++ [n]) bb
          | none => [])) ++ specFns pre r

end

/-- Sibling-name distinctness. -/
def allDistinct : List Str → Bool
  | [] => true
  | x :: r => !(r.any (fun y => decide (y = x))) && allDistinct r

/-!
`wfB` is the checker precondition the IR builder relies on: sibling
function names and sibling namespace names are distinct in every scope
(the `IndexMap` inserts never collide), and no declared name is the
reserved root marker (parser identifiers cannot contain `<`).
-/

mutual

def wfB : ONamespaceBody → Bool
  | .mk fns _ nss =>
    allDistinct (fns.map OFunctionDecl.name) &&
      allDistinct (nss.map ONamespaceDecl.name) && wfFns fns && wfNss nss

def wfFns : List OFunctionDecl → Bool
  | [] => true
  | .mk n _ b :: r =>
    !(decide (n = rootMarker)) &&
      (match b with
        | some bb => wfB bb
        | none => true) && wfFns r

def wfNss : List ONamespaceDecl → Bool
  | [] => true
  | .mk n b :: r => !(decide (n = rootMarker)) && wfB b && wfNss r

end

/-- The prefix string `Namespace::new` threads for a namespace at chain
`pre`: empty at the root, otherwise the dot-joined chain plus a trailing
dot. -/
def preStr : List Str → Str
  | [] => []
  | l@(_ :: _) => joinSep (str ".") l ++ str "."

theorem joinSep_append_singleton (sep : Str) (l : List Str) (n : Str)
    (h : l ≠ []) : joinSep sep (l ++ [n]) = joinSep sep l ++ sep ++ n := by
  induction l with
  | nil => exact absurd rfl h
  | cons x r ih =>
    cases r with
    | nil => rfl
    | cons y ys =>
      have := ih (by simp)
      simp only [List.cons_append, joinSep_cons] at this ⊢
      rw [this]
      simp [List.append_assoc]

theorem preStr_append (pre : List Str) (n : Str) :
    preStr pre ++ n = joinSep (str ".") (pre ++ [n]) := by
  cases pre with
  | nil => rfl
  | cons p ps =>
    rw [joinSep_append_singleton _ _ _ (by simp)]
    rfl

theorem preStr_snoc (pre : List Str) (n : Str) :
    preStr (pre ++ [n]) = preStr pre ++ n ++ str "." := by
  cases pre with
  | nil => rfl
  | cons p ps =>
    have h1 : preStr ((p :: ps) ++ [n]) =
        joinSep (str ".") ((p :: ps) ++ [n]) ++ str "." := by
      cases ps <;> rfl
    rw [h1, ← preStr_append]

theorem allDistinct_cons {x : Str} {r : List Str}
    (h : allDistinct (x :: r) = true) :
    (∀ y ∈ r, y ≠ x) ∧ allDistinct r = true := by
  simp only [allDistinct, Bool.and_eq_true, Bool.not_eq_true', List.any_eq_false,
    decide_eq_true_eq] at h
  exact ⟨h.1, h.2⟩

theorem indexMapInsert_append {β : Type} (m : List (Str × β)) (k : Str)
    (v : β) (h : ∀ p ∈ m, p.1 ≠ k) : indexMapInsert m k v = m ++ [(k, v)] := by
  have hfalse : m.any (fun p => decide (p.1 = k)) = false := by
    rw [List.any_eq_false]
    intro p hp
    simpa using h p hp
  simp [indexMapInsert, hfalse]

theorem childrenFuns_append (a b : List (Str × IrNamespace)) :
    childrenFuns (a ++ b) = childrenFuns a ++ childrenFuns b := by
  induction a with
  | nil => rfl
  | cons p r ih =>
    obtain ⟨n, c⟩ := p
    simp [childrenFuns, ih]

theorem localFuns_append (a b : List (Str × IrFun)) :
    localFuns (a ++ b) = localFuns a ++ localFuns b := by
  induction a with
  | nil => rfl
  | cons p r ih =>
    obtain ⟨n, c⟩ := p
    simp [localFuns, ih]

theorem childrenFold_eq (pfx : Str) (ds : List ONamespaceDecl)
    (acc : List (Str × IrNamespace))
    (hd : allDistinct (ds.map ONamespaceDecl.name) = true)
    (hdisj : ∀ p ∈ acc, ∀ d ∈ ds, p.1 ≠ ONamespaceDecl.name d) :
    childrenFold pfx acc ds =
      acc ++ ds.map (fun d =>
        (ONamespaceDecl.name d,
          nsNew pfx (ONamespaceDecl.name d) (ONamespaceDecl.body d))) := by
  induction ds generalizing acc with
  | nil => simp [childrenFold]
  | cons d r ih =>
    obtain ⟨n, b⟩ := d
    simp only [List.map_cons, ONamespaceDecl.name] at hd
    obtain ⟨hne, hd2⟩ := allDistinct_cons hd
    have hdisj2 : ∀ p ∈ acc ++ [(n, nsNew pfx n b)], ∀ d ∈ r,
        p.1 ≠ ONamespaceDecl.name d := by
      intro p hp d2 hd2mem
      rcases List.mem_append.mp hp with hmem | hmem
      · exact hdisj p hmem d2 (List.mem_cons_of_mem _ hd2mem)
      · have hp1 : p.1 = n := by
          simp only [List.mem_singleton] at hmem
          rw [hmem]
        rw [hp1]
        exact fun heq =>
          hne (ONamespaceDecl.name d2) (List.mem_map_of_mem _ hd2mem) heq.symm
    simp only [childrenFold]
    rw [indexMapInsert_append acc n (nsNew pfx n b)
      (fun p hp => hdisj p hp _ (List.mem_cons_self _ _))]
    rw [ih (acc ++ [(n, nsNew pfx n b)]) hd2 hdisj2]
    simp [ONamespaceDecl.name, ONamespaceDecl.body]

theorem funsFold_eq (pfx : Str) (ds : List OFunctionDecl)
    (acc : List (Str × IrFun))
    (hd : allDistinct (ds.map OFunctionDecl.name) = true)
    (hdisj : ∀ p ∈ acc, ∀ d ∈ ds, p.1 ≠ OFunctionDecl.name d) :
    funsFold pfx acc ds =
      acc ++ ds.map (fun d => (OFunctionDecl.name d, funNew pfx d)) := by
  induction ds generalizing acc with
  | nil => simp [funsFold]
  | cons d r ih =>
    obtain ⟨hne, hd2⟩ := by
      rw [List.map_cons] at hd
      exact allDistinct_cons hd
    have hdisj2 : ∀ p ∈ acc ++ [(OFunctionDecl.name d, funNew pfx d)],
        ∀ d2 ∈ r, p.1 ≠ OFunctionDecl.name d2 := by
      intro p hp d2 hd2mem
      rcases List.mem_append.mp hp with hmem | hmem
      · exact hdisj p hmem d2 (List.mem_cons_of_mem _ hd2mem)
      · have hp1 : p.1 = OFunctionDecl.name d := by
          simp only [List.mem_singleton] at hmem
          rw [hmem]
        rw [hp1]
        exact fun heq =>
          hne (OFunctionDecl.name d2) (List.mem_map_of_mem _ hd2mem) heq.symm
    simp only [funsFold]
    rw [indexMapInsert_append acc (OFunctionDecl.name d) (funNew pfx d)
      (fun p hp => hdisj p hp _ (List.mem_cons_self _ _))]
    rw [ih (acc ++ [(OFunctionDecl.name d, funNew pfx d)]) hd2 hdisj2]
    simp

/-- The pair (wire method name, declaration) computed by the IR. -/
def irProj (f : IrFun) : Str × OFunctionDecl := (f.rpcName, f.decl)

/-- The pair (dot-joined chain, declaration) computed directly on the AST. -/
def chainProj (p : List Str × OFunctionDecl) : Str × OFunctionDecl :=
  (joinSep (str ".") p.1, p.2)

theorem irProj_funNew (pfx : Str) (pre : List Str) (n : Str)
    (mods : Finset FunctionModifier) (b : Option ONamespaceBody)
    (hpfx : pfx = preStr pre) :
    (funNew pfx (.mk n mods b)).rpcName = joinSep (str ".") (pre ++ [n]) := by
  subst hpfx
  simp [funNew, IrFun.rpcName, IrFun.tokens, joinSep_splitOnDot, preStr_append]

mutual

theorem bodySpec : ∀ (b : ONamespaceBody) (pre : List Str),
    wfB b = true →
    (childrenFuns (childrenFold (preStr pre) [] b.namespaces) ++
        localFuns (funsFold (preStr pre) [] b.functions)).map irProj =
      (specBody pre b).map chainProj
  | .mk fns strs nss, pre, h => by
    simp only [wfB, Bool.and_eq_true] at h
    obtain ⟨⟨⟨hdf, hdn⟩, hwf⟩, hwn⟩ := h
    simp only [ONamespaceBody.functions, ONamespaceBody.namespaces]
    rw [childrenFold_eq _ _ _ hdn (by intro p hp; cases hp)]
    rw [funsFold_eq _ _ _ hdf (by intro p hp; cases hp)]
    simp only [List.nil_append, specBody, List.map_append]
    rw [nssSpec nss pre hwn, fnsSpec fns pre hwf]

theorem nssSpec : ∀ (ds : List ONamespaceDecl) (pre : List Str),
    wfNss ds = true →
    (childrenFuns (ds.map (fun d =>
        (ONamespaceDecl.name d,
          nsNew (preStr pre) (ONamespaceDecl.name d)
            (ONamespaceDecl.body d))))).map irProj =
      (specNss pre ds).map chainProj
  | [], pre, _ => by simp [childrenFuns, specNss]
  | .mk n (ONamespaceBody.mk fns2 strs2 nss2) :: r, pre, h => by
    simp only [wfNss, Bool.and_eq_true, Bool.not_eq_true',
      decide_eq_false_iff_not] at h
    obtain ⟨⟨hnr, hwb⟩, hwr⟩ := h
    have hpfx2 : (if n = rootMarker then ([] : Str)
        else preStr pre ++ n ++ str ".") = preStr (pre ++ [n]) := by
      rw [if_neg hnr, preStr_snoc]
    have hns : nsFuns (nsNew (preStr pre) n
        (ONamespaceBody.mk fns2 strs2 nss2)) =
        childrenFuns (childrenFold (preStr (pre ++ [n])) [] nss2) ++
          localFuns (funsFold (preStr (pre ++ [n])) [] fns2) := by
      simp only [nsNew, hpfx2]
      rfl
    have hb := bodySpec (ONamespaceBody.mk fns2 strs2 nss2) (pre ++ [n]) hwb
    simp only [ONamespaceBody.functions, ONamespaceBody.namespaces] at hb
    have htail := nssSpec r pre hwr
    show (nsFuns (nsNew (preStr pre) n (ONamespaceBody.mk fns2 strs2 nss2)) ++
        childrenFuns (r.map (fun d =>
          (ONamespaceDecl.name d,
            nsNew (preStr pre) (ONamespaceDecl.name d)
              (ONamespaceDecl.body d))))).map irProj =
      (specBody (pre ++ [n]) (ONamespaceBody.mk fns2 strs2 nss2) ++
        specNss pre r).map chainProj
    rw [List.map_append, List.map_append, htail, hns, hb]

theorem fnsSpec : ∀ (ds : List OFunctionDecl) (pre : List Str),
    wfFns ds = true →
    (localFuns (ds.map (fun d =>
        (OFunctionDecl.name d, funNew (preStr pre) d)))).map irProj =
      (specFns pre ds).map chainProj
  | [], pre, _ => by simp [localFuns, specFns]
  | .mk n mods none :: r, pre, h => by
    simp only [wfFns, Bool.and_eq_true, Bool.not_eq_true',
      decide_eq_false_iff_not] at h
    obtain ⟨⟨hnr, -⟩, hwr⟩ := h
    have htail := fnsSpec r pre hwr
    show (IrFun.mk (OFunctionDecl.mk n mods none)
        (splitOnDot (preStr pre ++ n)) none ::
        localFuns (r.map (fun d =>
          (OFunctionDecl.name d, funNew (preStr pre) d)))).map irProj =
      ((pre ++ [n], OFunctionDecl.mk n mods none) :: specFns pre r).map chainProj
    simp only [List.map_cons, htail]
    simp [irProj, chainProj, IrFun.rpcName, IrFun.tokens, IrFun.decl,
      joinSep_splitOnDot, preStr_append]
  | .mk n mods (some (ONamespaceBody.mk fns2 strs2 nss2)) :: r, pre, h => by
    simp only [wfFns, Bool.and_eq_true, Bool.not_eq_true',
      decide_eq_false_iff_not] at h
    obtain ⟨⟨hnr, hwb⟩, hwr⟩ := h
    have hpfx2 : (if n = rootMarker then ([] : Str)
        else preStr pre ++ n ++ str ".") = preStr (pre ++ [n]) := by
      rw [if_neg hnr, preStr_snoc]
    have hns : nsFuns (nsNew (preStr pre) n
        (ONamespaceBody.mk fns2 strs2 nss2)) =
        childrenFuns (childrenFold (preStr (pre ++ [n])) [] nss2) ++
          localFuns (funsFold (preStr (pre ++ [n])) [] fns2) := by
      simp only [nsNew, hpfx2]
      rfl
    have hb := bodySpec (ONamespaceBody.mk fns2 strs2 nss2) (pre ++ [n]) hwb
    simp only [ONamespaceBody.functions, ONamespaceBody.namespaces] at hb
    have htail := fnsSpec r pre hwr
    show (IrFun.mk (OFunctionDecl.mk n mods
          (some (ONamespaceBody.mk fns2 strs2 nss2)))
        (splitOnDot (preStr pre ++ n))
        (some (nsNew (preStr pre) n (ONamespaceBody.mk fns2 strs2 nss2))) ::
        (nsFuns (nsNew (preStr pre) n (ONamespaceBody.mk fns2 strs2 nss2)) ++
          localFuns (r.map (fun d =>
            (OFunctionDecl.name d, funNew (preStr pre) d))))).map irProj =
      ((pre ++ [n], OFunctionDecl.mk n mods
          (some (ONamespaceBody.mk fns2 strs2 nss2))) ::
        (specBody (pre ++ [n]) (ONamespaceBody.mk fns2 strs2 nss2) ++
          specFns pre r)).map chainProj
    simp only [List.map_cons, List.map_append, htail, hns, hb]
    simp [irProj, chainProj, IrFun.rpcName, IrFun.tokens, IrFun.decl,
      joinSep_splitOnDot, preStr_append]

end

/-- `Namespace::new("", "<root>", body)` — the root build — realises the
chain-level specification at the empty chain. -/
theorem rootFuns_spec (b : ONamespaceBody) (h : wfB b = true) :
    (nsFuns (nsNew (str "") rootMarker b)).map irProj =
      (specBody [] b).map chainProj := by
  obtain ⟨fns, strs, nss⟩ := b
  have hb := bodySpec (ONamespaceBody.mk fns strs nss) [] h
  simp only [ONamespaceBody.functions, ONamespaceBody.namespaces] at hb
  exact hb

theorem listFilterMapComm {α β : Type} (l : List α) (f : α → β)
    (p : β → Bool) :
    (l.map f).filter p = (l.filter (fun a => p (f a))).map f := by
  induction l with
  | nil => rfl
  | cons x r ih =>
    simp only [List.map_cons, List.filter_cons]
    cases hp : p (f x) <;> simp [hp, ih]

/-- The `namespace math { fn add(...) }` schema, as ir.rs receives it. -/
def mathBody : ONamespaceBody :=
  .mk [] []
    [.mk (str "math") (.mk [.mk (str "add") ∅ none] [] [])]

/-- C3: in every dispatch tagged-union (the `Params`/`Results` atoms filter
on `Request`, the `NotificationParams` atom on `Notification`), the
method-name match returns, for each case, exactly the dot-join of the
originating function's enclosing-name chain; concretely the `math.add` case
returns the literal `"math.add"`. -/
theorem claim_C3 :
    (∀ (b : ONamespaceBody) (kind : FunKind), wfB b = true →
        (atomMethodArms kind
            (nsFuns (nsNew (str "") rootMarker b))).map Prod.snd =
          ((specBody [] b).filter
              (fun p => decide (p.2.kind = kind))).map
            (fun p => joinSep (str ".") p.1)) ∧
      atomMethodArms .request (nsFuns (nsNew (str "") rootMarker mathBody)) =
        [(str "math__add", str "math.add")] := by
  refine ⟨?_, by rfl⟩
  intro b kind h
  have hkey := rootFuns_spec b h
  have h1 : (atomMethodArms kind
      (nsFuns (nsNew (str "") rootMarker b))).map Prod.snd =
      (((nsFuns (nsNew (str "") rootMarker b)).map irProj).filter
        (fun pr => decide (pr.2.kind = kind))).map Prod.fst := by
    rw [listFilterMapComm, List.map_map]
    simp only [atomMethodArms, atomFilter, List.map_map]
    rfl
  rw [h1, hkey, listFilterMapComm, List.map_map]
  rfl

/-- Witness for C3 at the `math.add` schema. -/
theorem claim_C3_witness :
    wfB mathBody = true ∧
      (atomMethodArms FunKind.request
          (nsFuns (nsNew (str "") rootMarker mathBody))).map Prod.snd =
        ((specBody [] mathBody).filter
            (fun p => decide (p.2.kind = FunKind.request))).map
          (fun p => joinSep (str ".") p.1) :=
  ⟨by decide, claim_C3.1 mathBody FunKind.request (by decide)⟩

/-!
## Claim C4: traversal order
-/

def prefixB : List Str → List Str → Bool
  | [], _ => true
  | _ :: _, [] => false
  | a :: as, b :: bs => decide (a = b) && prefixB as bs

def strictPrefixB (a b : List Str) : Bool := prefixB a b && !(decide (a = b))

/-- The order property the claim asserts of a chain list: whenever one chain
is a proper prefix of another (a function versus a function of its nested
body), the prefix's entry comes strictly earlier. -/
def chainsOwnFirstB (l : List (List Str)) : Bool :=
  (List.range l.length).all fun i =>
    (List.range l.length).all fun j =>
      !(strictPrefixB (l.getD i []) (l.getD j [])) || decide (i < j)

/-- Old-generation sample: `fn top { fn inner }` beside `namespace math { fn add }`. -/
def oldSample : ONamespaceBody :=
  .mk [.mk (str "top") ∅ (some (.mk [.mk (str "inner") ∅ none] [] []))] []
    [.mk (str "math") (.mk [.mk (str "add") ∅ none] [] [])]

/-- New-generation sample: `fn a { fn b }`. -/
def newSample : NNamespaceBody :=
  .mk [.mk (str "a") .server (some (.mk [.mk (str "b") .server none] []))] []

/-- C4 (amended): the traversals are pure functions of the tree, hence
deterministic, but the two generations differ in the relative order of a
function and its nested body. (i) The old-generation `funs()` realises the
chain-level specification `specBody` — child namespaces' functions first,
then each local function with its own entry before its nested body's
functions; (ii) concretely its order at `oldSample` is
`math.add, top, top.inner` and satisfies the own-entry-first property;
(iii) the newer `for_each_fun_of_schema` instead yields a function's nested
body's functions before the function's own entry. -/
theorem claim_C4 :
    (∀ b : ONamespaceBody, wfB b = true →
        (nsFuns (nsNew (str "") rootMarker b)).map irProj =
          (specBody [] b).map chainProj) ∧
      (nsFuns (nsNew (str "") rootMarker oldSample)).map IrFun.rpcName =
        [str "math.add", str "top", str "top.inner"] ∧
      chainsOwnFirstB
          ((nsFuns (nsNew (str "") rootMarker oldSample)).map IrFun.tokens) =
        true ∧
      (schemaFunsB [] newSample).map (fun p => p.1 ++ [p.2.name]) =
        [[str "a", str "b"], [str "a"]] :=
  ⟨fun b h => rootFuns_spec b h, by rfl, by rfl, by rfl⟩

/-- C4 counterexample: under `for_each_fun_of_schema` the nested function
`a.b` is visited before its parent `a`, so the claimed
own-entry-before-nested-body pre-order fails for that traversal. -/
theorem claim_C4_counterexample :
    (schemaFunsB [] newSample).map (fun p => p.1 ++ [p.2.name]) =
        [[str "a", str "b"], [str "a"]] ∧
      chainsOwnFirstB
          ((schemaFunsB [] newSample).map (fun p => p.1 ++ [p.2.name])) =
        false :=
  ⟨by rfl, by rfl⟩

/-- Witness for C4 at `oldSample`. -/
theorem claim_C4_witness :
    wfB oldSample = true ∧
      (nsFuns (nsNew (str "") rootMarker oldSample)).map irProj =
        (specBody [] oldSample).map chainProj :=
  ⟨by decide, claim_C4.1 oldSample (by decide)⟩
